import Mathlib

/-!
Verification of the proof-of-existence pallet
(`src/barnacle/pallets/poe/src/lib.rs`).

The pallet keeps a storage map `Proofs : ClassData -> (AccountId, BlockNumber)`
and exposes three dispatchable calls: `create_claim`, `revoke_claim` and
`transfer_claim`.  We embed the storage map as an association list (the
host storage collaborator guarantees exact-key get/insert/remove; insert
overwrites the key's previous value), the signed origin as `Option A`
(`ensure_signed` fails with `BadOrigin` on an unsigned origin), and the
block number read by `frame_system::Pallet::<T>::block_number()` as an
explicit `now` argument supplied by the sequence source.
-/

namespace Poe

/-- The `Proofs` storage map, embedded as an association list of
`(claim key, owner, block number)` entries.  `K` is `T::ClassData`,
`A` is `T::AccountId`, `B` is `T::BlockNumber`. -/
def Claims (K A B : Type) : Type := List (K × A × B)

/-- The empty registry (substrate storage starts empty). -/
def emptyClaims (K A B : Type) : Claims K A B := []

/-- `Proofs::<T>::contains_key(&claim)`: exact-key membership. -/
def contains_key {K A B : Type} [DecidableEq K] (k : K) : Claims K A B → Bool
  | [] => false
  | e :: t => if e.1 = k then true else contains_key k t

/-- `Proofs::<T>::get(&claim)`: the stored `(owner, block number)` pair. -/
def getClaim {K A B : Type} [DecidableEq K] (k : K) :
    Claims K A B → Option (A × B)
  | [] => Option.none
  | e :: t => if e.1 = k then Option.some e.2 else getClaim k t

/-- `Proofs::<T>::remove(&claim)`: drops every entry stored at `k`. -/
def removeClaim {K A B : Type} [DecidableEq K] (k : K) :
    Claims K A B → Claims K A B
  | [] => []
  | e :: t => if e.1 = k then removeClaim k t else e :: removeClaim k t

/-- `Proofs::<T>::insert(&claim, v)`: overwrites the value stored at `k`. -/
def insertClaim {K A B : Type} [DecidableEq K] (k : K) (v : A × B)
    (m : Claims K A B) : Claims K A B :=
  (k, v.1, v.2) :: removeClaim k m

/-- The keys currently present in the registry. -/
def keysOf {K A B : Type} (m : Claims K A B) : List K := m.map Prod.fst

/-- How many entries the mapping holds for key `k`. -/
def keyCount {K A B : Type} [DecidableEq K] (k : K) (m : Claims K A B) : Nat :=
  (keysOf m).count k

/-- The pallet's `Error<T>` enum, together with `BadOrigin`, the dispatch
error `ensure_signed` returns on an unsigned origin. -/
inductive PoeError where
  | BadOrigin
  | ProofAlreadyExist
  | ClaimNotExist
  | NotClaimOwner
  | DestinationIsClaimOwner
  | ClaimTooBig
  | ClaimTooSmall
  deriving DecidableEq, Repr

/-- The pallet's `Event<T>` enum. -/
inductive Event (K A : Type) where
  | ClaimCreated (who : A) (claim : K)
  | ClaimRevoked (who : A) (claim : K)
  | ClaimTransferred (who : A) (dest : A) (claim : K)
  deriving DecidableEq, Repr

/-- `create_claim(origin, claim)`.  The two length checks of the source are
commented out there, so they do not appear here.  `ensure_signed` first,
then the `contains_key` check, then insert and event. -/
def create_claim {K A B : Type} [DecidableEq K] [DecidableEq A]
    (origin : Option A) (claim : K) (now : B) (st : Claims K A B) :
    Except PoeError (Claims K A B × Event K A) :=
  match origin with
  | none => Except.error PoeError.BadOrigin
  | some sender =>
    if contains_key claim st then Except.error PoeError.ProofAlreadyExist
    else Except.ok (insertClaim claim (sender, now) st,
                    Event.ClaimCreated sender claim)

/-- `revoke_claim(origin, claim)`: `ensure_signed`, then
`get(&claim).ok_or(ClaimNotExist)?`, then the owner check, then remove
and event. -/
def revoke_claim {K A B : Type} [DecidableEq K] [DecidableEq A]
    (origin : Option A) (claim : K) (st : Claims K A B) :
    Except PoeError (Claims K A B × Event K A) :=
  match origin with
  | none => Except.error PoeError.BadOrigin
  | some sender =>
    match getClaim claim st with
    | none => Except.error PoeError.ClaimNotExist
    | some (owner, _) =>
      if owner = sender then
        Except.ok (removeClaim claim st, Event.ClaimRevoked sender claim)
      else Except.error PoeError.NotClaimOwner

/-- `transfer_claim(origin, destination, claim)`: `ensure_signed`, the
`ClaimNotExist` lookup, the owner check, the `owner != destination`
check, then remove, insert with the current block number, and event. -/
def transfer_claim {K A B : Type} [DecidableEq K] [DecidableEq A]
    (origin : Option A) (destination : A) (claim : K) (now : B)
    (st : Claims K A B) : Except PoeError (Claims K A B × Event K A) :=
  match origin with
  | none => Except.error PoeError.BadOrigin
  | some sender =>
    match getClaim claim st with
    | none => Except.error PoeError.ClaimNotExist
    | some (owner, _) =>
      if owner = sender then
        if owner ≠ destination then
          Except.ok (insertClaim claim (destination, now) (removeClaim claim st),
                     Event.ClaimTransferred sender destination claim)
        else Except.error PoeError.DestinationIsClaimOwner
      else Except.error PoeError.NotClaimOwner

/-- One dispatchable call of the pallet, with its origin and the block
number at which it runs. -/
inductive Op (K A B : Type) where
  | create (origin : Option A) (claim : K) (now : B)
  | revoke (origin : Option A) (claim : K)
  | transfer (origin : Option A) (destination : A) (claim : K) (now : B)

/-- The origin of a call. -/
def opOrigin {K A B : Type} : Op K A B → Option A
  | Op.create o _ _ => o
  | Op.revoke o _ => o
  | Op.transfer o _ _ _ => o

/-- The claim key a call targets. -/
def opClaim {K A B : Type} : Op K A B → K
  | Op.create _ c _ => c
  | Op.revoke _ c => c
  | Op.transfer _ _ c _ => c

/-- Dispatch a call against the current registry. -/
def runOp {K A B : Type} [DecidableEq K] [DecidableEq A]
    (op : Op K A B) (st : Claims K A B) :
    Except PoeError (Claims K A B × Event K A) :=
  match op with
  | Op.create o c n => create_claim o c n st
  | Op.revoke o c => revoke_claim o c st
  | Op.transfer o d c n => transfer_claim o d c n st

/-- The transactional host applies a call all-or-nothing: on success the
new storage and the deposited event are committed, on any error the
storage is kept as it was and no event is deposited. -/
def step {K A B : Type} [DecidableEq K] [DecidableEq A]
    (st : Claims K A B) (op : Op K A B) :
    Claims K A B × List (Event K A) :=
  match runOp op st with
  | Except.ok (st2, ev) => (st2, [ev])
  | Except.error _ => (st, [])

/-- Run a sequence of calls from the empty registry. -/
def execOps {K A B : Type} [DecidableEq K] [DecidableEq A]
    (ops : List (Op K A B)) : Claims K A B :=
  ops.foldl (fun st op => (step st op).1) (emptyClaims K A B)

/-- The `Content` enum: a byte payload tagged with an encoding discriminator.
Bytes are modelled as natural numbers below 256. -/
inductive Content where
  | None
  | Raw (payload : List Nat)
  | IPFS (payload : List Nat)
  | Hyper (payload : List Nat)
  deriving DecidableEq, Repr

/-- `impl Default for Content`: the default value is `Content::None`. -/
def defaultContent : Content := Content.None

/-- `Content::is_none`. -/
def Content.is_none (c : Content) : Bool := decide (c = Content.None)

/-- `Content::is_some`. -/
def Content.is_some (c : Content) : Bool := ! c.is_none

/-- `Content::is_ipfs`. -/
def Content.is_ipfs : Content → Bool
  | Content.IPFS _ => true
  | _ => false

/-- `impl From<Content> for Vec<u8>`: the raw byte payload of a `Content`
value (`Content::None` yields the empty vector). -/
def contentToBytes : Content → List Nat
  | Content.None => []
  | Content.Raw v => v
  | Content.IPFS v => v
  | Content.Hyper v => v

/-- Modelled from the spec: the serialization collaborator (the derived
`Encode` of the SCALE codec crate, not part of this repository's sources)
encodes a byte vector's length as a SCALE compact `u32`: mode `00` one
byte for values below `2^6`, mode `01` two bytes little-endian for values
below `2^14`, mode `10` four bytes little-endian for values below `2^30`,
and otherwise the big-integer mode `11` with four payload bytes. -/
def compactEncode (n : Nat) : List Nat :=
  if n < 64 then [n * 4]
  else if n < 16384 then
    [(n * 4 + 1) % 256, (n * 4 + 1) / 256]
  else if n < 1073741824 then
    [(n * 4 + 2) % 256, (n * 4 + 2) / 256 % 256,
     (n * 4 + 2) / 65536 % 256, (n * 4 + 2) / 16777216 % 256]
  else
    [3, n % 256, n / 256 % 256, n / 65536 % 256, n / 16777216 % 256]

/-- Modelled from the spec: SCALE compact `u32` decoding, the inverse of
`compactEncode`; rejects non-canonical encodings, returns the decoded
value and the remaining bytes. -/
def compactDecode : List Nat → Option (Nat × List Nat)
  | [] => Option.none
  | b :: rest =>
    if b % 4 = 0 then Option.some (b / 4, rest)
    else if b % 4 = 1 then
      match rest with
      | b1 :: r =>
        let v := (b + 256 * b1) / 4
        if 64 ≤ v then Option.some (v, r) else Option.none
      | [] => Option.none
    else if b % 4 = 2 then
      match rest with
      | b1 :: b2 :: b3 :: r =>
        let v := (b + 256 * b1 + 65536 * b2 + 16777216 * b3) / 4
        if 16384 ≤ v then Option.some (v, r) else Option.none
      | _ => Option.none
    else
      if b / 4 = 0 then
        match rest with
        | b0 :: b1 :: b2 :: b3 :: r =>
          let v := b0 + 256 * b1 + 65536 * b2 + 16777216 * b3
          if 1073741824 ≤ v then Option.some (v, r) else Option.none
        | _ => Option.none
      else Option.none

/-- Modelled from the spec: SCALE encoding of a byte vector — the compact
length followed by the payload bytes. -/
def encodeBytes (v : List Nat) : List Nat := compactEncode v.length ++ v

/-- Modelled from the spec: SCALE decoding of a byte vector. -/
def decodeBytes (bs : List Nat) : Option (List Nat × List Nat) :=
  match compactDecode bs with
  | Option.some (len, rest) =>
    if len ≤ rest.length then Option.some (rest.take len, rest.drop len)
    else Option.none
  | Option.none => Option.none

/-- Modelled from the spec: the derived SCALE `Encode` for `Content` — a
one-byte variant index in declaration order followed by the variant's
fields. -/
def encodeContent : Content → List Nat
  | Content.None => [0]
  | Content.Raw v => 1 :: encodeBytes v
  | Content.IPFS v => 2 :: encodeBytes v
  | Content.Hyper v => 3 :: encodeBytes v

/-- Modelled from the spec: the derived SCALE `Decode` for `Content`. -/
def decodeContent (bs : List Nat) : Option (Content × List Nat) :=
  match bs with
  | [] => Option.none
  | t :: rest =>
    if t = 0 then Option.some (Content.None, rest)
    else if t = 1 then
      (decodeBytes rest).map (fun p => (Content.Raw p.1, p.2))
    else if t = 2 then
      (decodeBytes rest).map (fun p => (Content.IPFS p.1, p.2))
    else if t = 3 then
      (decodeBytes rest).map (fun p => (Content.Hyper p.1, p.2))
    else Option.none

/-! ### Storage-map lemmas -/

theorem keysOf_cons {K A B : Type} (e : K × A × B) (t : Claims K A B) :
    keysOf (e :: t) = e.1 :: keysOf t := rfl

theorem keysOf_removeClaim {K A B : Type} [DecidableEq K] (k : K)
    (m : Claims K A B) :
    keysOf (removeClaim k m) = (keysOf m).filter (fun x => decide (x ≠ k)) := by
  induction m with
  | nil => rfl
  | cons e t ih =>
    by_cases he : e.1 = k <;>
      simp [removeClaim, keysOf_cons, List.filter_cons, he, decide_not, ih]

theorem not_mem_keys_removeClaim {K A B : Type} [DecidableEq K] (k : K)
    (m : Claims K A B) : k ∉ keysOf (removeClaim k m) := by
  rw [keysOf_removeClaim]
  intro h
  simpa using (List.mem_filter.mp h).2

theorem nodup_keys_removeClaim {K A B : Type} [DecidableEq K] (k : K)
    (m : Claims K A B) (h : (keysOf m).Nodup) :
    (keysOf (removeClaim k m)).Nodup := by
  rw [keysOf_removeClaim]
  exact h.filter _

theorem nodup_keys_insertClaim {K A B : Type} [DecidableEq K] (k : K)
    (v : A × B) (m : Claims K A B) (h : (keysOf m).Nodup) :
    (keysOf (insertClaim k v m)).Nodup := by
  have hc : keysOf (insertClaim k v m) = k :: keysOf (removeClaim k m) := rfl
  rw [hc, List.nodup_cons]
  exact ⟨not_mem_keys_removeClaim k m, nodup_keys_removeClaim k m h⟩

theorem getClaim_insertClaim_self {K A B : Type} [DecidableEq K] (k : K)
    (v : A × B) (m : Claims K A B) :
    getClaim k (insertClaim k v m) = some v := by
  simp [getClaim, insertClaim]

theorem getClaim_removeClaim_ne {K A B : Type} [DecidableEq K] (k l : K)
    (m : Claims K A B) (h : l ≠ k) :
    getClaim l (removeClaim k m) = getClaim l m := by
  have hkl : ¬ k = l := fun hc => h hc.symm
  induction m with
  | nil => rfl
  | cons e t ih =>
    by_cases he : e.1 = k <;>
      by_cases hel : e.1 = l <;>
      simp [removeClaim, getClaim, he, hel, h, hkl, ih]

theorem getClaim_removeClaim_self {K A B : Type} [DecidableEq K] (k : K)
    (m : Claims K A B) : getClaim k (removeClaim k m) = Option.none := by
  induction m with
  | nil => rfl
  | cons e t ih =>
    by_cases he : e.1 = k <;> simp [removeClaim, getClaim, he, ih]

theorem getClaim_insertClaim_ne {K A B : Type} [DecidableEq K] (k l : K)
    (v : A × B) (m : Claims K A B) (h : l ≠ k) :
    getClaim l (insertClaim k v m) = getClaim l m := by
  have hk : ¬ (k = l) := fun hc => h hc.symm
  have hstep : getClaim l (insertClaim k v m) = getClaim l (removeClaim k m) := by
    simp [insertClaim, getClaim, hk]
  rw [hstep, getClaim_removeClaim_ne k l m h]

theorem contains_key_removeClaim_self {K A B : Type} [DecidableEq K] (k : K)
    (m : Claims K A B) : contains_key k (removeClaim k m) = false := by
  induction m with
  | nil => rfl
  | cons e t ih =>
    by_cases he : e.1 = k <;> simp [removeClaim, contains_key, he, ih]

theorem contains_key_iff_mem_keys {K A B : Type} [DecidableEq K] (k : K)
    (m : Claims K A B) : contains_key k m = true ↔ k ∈ keysOf m := by
  induction m with
  | nil => simp [contains_key, keysOf]
  | cons e t ih =>
    by_cases he : e.1 = k
    · simp [contains_key, keysOf_cons, he]
    · have hne : ¬ k = e.1 := fun hc => he hc.symm
      simp [contains_key, keysOf_cons, he, hne, ih]

theorem contains_key_eq_isSome_getClaim {K A B : Type} [DecidableEq K] (k : K)
    (m : Claims K A B) : contains_key k m = (getClaim k m).isSome := by
  induction m with
  | nil => rfl
  | cons e t ih =>
    by_cases he : e.1 = k <;> simp [contains_key, getClaim, he, ih]


/-! ### Codec lemmas -/

theorem compactDecode_compactEncode (n : Nat) (tail : List Nat)
    (h : n < 4294967296) :
    compactDecode (compactEncode n ++ tail) = some (n, tail) := by
  by_cases h1 : n < 64
  · have e1 : n * 4 % 4 = 0 := by omega
    have e2 : n * 4 / 4 = n := by omega
    simp [compactEncode, h1, compactDecode, e1, e2]
  · by_cases h2 : n < 16384
    · have e0 : ¬ ((n * 4 + 1) % 256 % 4 = 0) := by omega
      have e1 : (n * 4 + 1) % 256 % 4 = 1 := by omega
      have e2 : ((n * 4 + 1) % 256 + 256 * ((n * 4 + 1) / 256)) / 4 = n := by
        omega
      have e3 : 64 ≤ n := by omega
      simp [compactEncode, h1, h2, compactDecode, e0, e1, e2, e3]
    · by_cases h3 : n < 1073741824
      · have e0 : ¬ ((n * 4 + 2) % 256 % 4 = 0) := by omega
        have e1 : ¬ ((n * 4 + 2) % 256 % 4 = 1) := by omega
        have e2 : (n * 4 + 2) % 256 % 4 = 2 := by omega
        have e3 : ((n * 4 + 2) % 256 + 256 * ((n * 4 + 2) / 256 % 256) +
            65536 * ((n * 4 + 2) / 65536 % 256) +
            16777216 * ((n * 4 + 2) / 16777216 % 256)) / 4 = n := by omega
        have e4 : 16384 ≤ n := by omega
        simp [compactEncode, h1, h2, h3, compactDecode, e0, e1, e2, e3, e4]
      · have e3 : n % 256 + 256 * (n / 256 % 256) + 65536 * (n / 65536 % 256) +
            16777216 * (n / 16777216 % 256) = n := by omega
        have e4 : 1073741824 ≤ n := by omega
        simp [compactEncode, h1, h2, h3, compactDecode, e3, e4]

theorem decodeBytes_encodeBytes (v tail : List Nat)
    (h : v.length < 4294967296) :
    decodeBytes (encodeBytes v ++ tail) = some (v, tail) := by
  rw [encodeBytes, List.append_assoc]
  rw [decodeBytes, compactDecode_compactEncode v.length (v ++ tail) h]
  simp [List.take_left, List.drop_left]


theorem decodeBytes_encodeBytes_nil (v : List Nat) (h : v.length < 4294967296) :
    decodeBytes (encodeBytes v) = some (v, []) := by
  have hv := decodeBytes_encodeBytes v [] h
  simpa using hv

theorem decodeContent_encodeContent (c : Content)
    (h : (contentToBytes c).length < 4294967296) :
    decodeContent (encodeContent c) = some (c, []) := by
  cases c with
  | None => rfl
  | Raw v =>
    have hv : v.length < 4294967296 := by simpa [contentToBytes] using h
    simp [encodeContent, decodeContent, decodeBytes_encodeBytes_nil v hv]
  | IPFS v =>
    have hv : v.length < 4294967296 := by simpa [contentToBytes] using h
    simp [encodeContent, decodeContent, decodeBytes_encodeBytes_nil v hv]
  | Hyper v =>
    have hv : v.length < 4294967296 := by simpa [contentToBytes] using h
    simp [encodeContent, decodeContent, decodeBytes_encodeBytes_nil v hv]


/-! ### The registry invariant: keys stay unique through every call -/

theorem nodup_keys_step {K A B : Type} [DecidableEq K] [DecidableEq A]
    (op : Op K A B) (st : Claims K A B) (h : (keysOf st).Nodup) :
    (keysOf (step st op).1).Nodup := by
  cases op with
  | create o c n =>
    cases o with
    | none => simpa [step, runOp, create_claim] using h
    | some s =>
      by_cases hc : contains_key c st
      · simpa [step, runOp, create_claim, hc] using h
      · simpa [step, runOp, create_claim, hc] using
          nodup_keys_insertClaim c (s, n) st h
  | revoke o c =>
    cases o with
    | none => simpa [step, runOp, revoke_claim] using h
    | some s =>
      cases hg : getClaim c st with
      | none => simpa [step, runOp, revoke_claim, hg] using h
      | some p =>
        obtain ⟨owner, regAt⟩ := p
        by_cases ho : owner = s
        · simpa [step, runOp, revoke_claim, hg, ho] using
            nodup_keys_removeClaim c st h
        · simpa [step, runOp, revoke_claim, hg, ho] using h
  | transfer o d c n =>
    cases o with
    | none => simpa [step, runOp, transfer_claim] using h
    | some s =>
      cases hg : getClaim c st with
      | none => simpa [step, runOp, transfer_claim, hg] using h
      | some p =>
        obtain ⟨owner, regAt⟩ := p
        by_cases ho : owner = s
        · subst ho
          by_cases hd : owner = d
          · simpa [step, runOp, transfer_claim, hg, hd] using h
          · simpa [step, runOp, transfer_claim, hg, hd] using
              nodup_keys_insertClaim c (d, n) (removeClaim c st)
                (nodup_keys_removeClaim c st h)
        · simpa [step, runOp, transfer_claim, hg, ho] using h

theorem nodup_keys_foldl {K A B : Type} [DecidableEq K] [DecidableEq A]
    (ops : List (Op K A B)) (st : Claims K A B) (h : (keysOf st).Nodup) :
    (keysOf (ops.foldl (fun s o => (step s o).1) st)).Nodup := by
  induction ops generalizing st with
  | nil => exact h
  | cons o t ih => exact ih _ (nodup_keys_step o st h)

theorem nodup_keys_execOps {K A B : Type} [DecidableEq K] [DecidableEq A]
    (ops : List (Op K A B)) : (keysOf (execOps ops)).Nodup :=
  nodup_keys_foldl ops (emptyClaims K A B) (by simp [emptyClaims, keysOf])


/-! ### Claim theorems -/

/-- Claim C1: for every key `k` and every sequence of `create_claim`,
`revoke_claim` and `transfer_claim` calls starting from the empty
registry, the `Proofs` mapping holds at most one entry for `k`, and `k`
is present in the mapping exactly when it has exactly one entry, i.e. is
owned by exactly one actor. -/
theorem claim_uniqueness {K A B : Type} [DecidableEq K] [DecidableEq A]
    (ops : List (Op K A B)) (k : K) :
    keyCount k (execOps ops) ≤ 1 ∧
    (contains_key k (execOps ops) = true ↔ keyCount k (execOps ops) = 1) := by
  have hnd := nodup_keys_execOps (K := K) (A := A) (B := B) ops
  have hle : (keysOf (execOps ops)).count k ≤ 1 :=
    List.nodup_iff_count_le_one.mp hnd k
  constructor
  · simpa [keyCount] using hle
  · rw [contains_key_iff_mem_keys]
    simp only [keyCount]
    constructor
    · intro hm
      have hpos : 0 < (keysOf (execOps ops)).count k :=
        List.count_pos_iff.mpr hm
      omega
    · intro hc
      have hpos : 0 < (keysOf (execOps ops)).count k := by omega
      exact List.count_pos_iff.mp hpos


/-- Claim C2: for an authenticated caller, `create_claim` fails with
`ProofAlreadyExist` when the key is already present (and the transactional
step leaves the mapping unchanged and deposits no event), and otherwise
succeeds, inserting `key -> (caller, now)` — `now` being the block number
read at call time — and emitting `ClaimCreated(caller, key)`, after which
the mapping holds the key with owner `caller` and block number `now`. -/
theorem create_claim_spec {K A B : Type} [DecidableEq K] [DecidableEq A]
    (sender : A) (k : K) (now : B) (st : Claims K A B) :
    (contains_key k st = true →
      create_claim (some sender) k now st =
        Except.error PoeError.ProofAlreadyExist ∧
      step st (Op.create (some sender) k now) = (st, [])) ∧
    (contains_key k st = false →
      create_claim (some sender) k now st =
        Except.ok (insertClaim k (sender, now) st,
                   Event.ClaimCreated sender k) ∧
      getClaim k (insertClaim k (sender, now) st) = some (sender, now)) := by
  constructor
  · intro hc
    exact ⟨by simp [create_claim, hc], by simp [step, runOp, create_claim, hc]⟩
  · intro hc
    exact ⟨by simp [create_claim, hc],
           getClaim_insertClaim_self k (sender, now) st⟩

/-- Witness for C2: on the empty registry, caller 1 creates claim 5 at
block 2; the call succeeds, stores `(1, 2)` under key 5 and emits
`ClaimCreated(1, 5)`. -/
theorem create_claim_spec_witness :
    create_claim (some 1) (5 : Nat) (2 : Nat) (emptyClaims Nat Nat Nat) =
      Except.ok ([(5, 1, 2)], Event.ClaimCreated 1 5) ∧
    getClaim 5 ([(5, 1, 2)] : Claims Nat Nat Nat) = some (1, 2) :=
  (create_claim_spec 1 5 2 (emptyClaims Nat Nat Nat)).2 rfl

/-- Claim C3: for an authenticated caller, `revoke_claim` fails with
`ClaimNotExist` when the key is absent, fails with `NotClaimOwner` when
the stored owner differs from the caller, and otherwise succeeds,
removing the key and emitting `ClaimRevoked(caller, key)`; afterwards the
mapping no longer contains the key. -/
theorem revoke_claim_spec {K A B : Type} [DecidableEq K] [DecidableEq A]
    (sender : A) (k : K) (st : Claims K A B) :
    (getClaim k st = Option.none →
      revoke_claim (some sender) k st =
        Except.error PoeError.ClaimNotExist) ∧
    (∀ owner regAt, getClaim k st = some (owner, regAt) → owner ≠ sender →
      revoke_claim (some sender) k st =
        Except.error PoeError.NotClaimOwner) ∧
    (∀ regAt, getClaim k st = some (sender, regAt) →
      revoke_claim (some sender) k st =
        Except.ok (removeClaim k st, Event.ClaimRevoked sender k) ∧
      contains_key k (removeClaim k st) = false) := by
  refine ⟨fun hg => by simp [revoke_claim, hg], ?_, ?_⟩
  · intro owner regAt hg ho
    simp [revoke_claim, hg, ho]
  · intro regAt hg
    exact ⟨by simp [revoke_claim, hg], contains_key_removeClaim_self k st⟩

/-- Witness for C3: caller 1 revokes claim 5 it owns; the call succeeds,
the entry is removed and `ClaimRevoked(1, 5)` is emitted. -/
theorem revoke_claim_spec_witness :
    revoke_claim (some 1) (5 : Nat) ([(5, 1, 2)] : Claims Nat Nat Nat) =
      Except.ok ([], Event.ClaimRevoked 1 5) ∧
    contains_key 5 (removeClaim 5 ([(5, 1, 2)] : Claims Nat Nat Nat)) = false :=
  (revoke_claim_spec 1 5 [(5, 1, 2)]).2.2 2 rfl

/-- Claim C4: for an authenticated caller, `transfer_claim` fails with
`ClaimNotExist` when the key is absent, with `NotClaimOwner` when the
stored owner differs from the caller, and with `DestinationIsClaimOwner`
when the destination equals the caller (who is the owner at that point);
otherwise it succeeds, removing the old entry, inserting
`key -> (destination, now)` — the block number refreshed to the transfer
time, whatever block `regAt` the claim was created at — and emitting
`ClaimTransferred(caller, destination, key)`. -/
theorem transfer_claim_spec {K A B : Type} [DecidableEq K] [DecidableEq A]
    (sender destination : A) (k : K) (now : B) (st : Claims K A B) :
    (getClaim k st = Option.none →
      transfer_claim (some sender) destination k now st =
        Except.error PoeError.ClaimNotExist) ∧
    (∀ owner regAt, getClaim k st = some (owner, regAt) → owner ≠ sender →
      transfer_claim (some sender) destination k now st =
        Except.error PoeError.NotClaimOwner) ∧
    (∀ regAt, getClaim k st = some (sender, regAt) → sender = destination →
      transfer_claim (some sender) destination k now st =
        Except.error PoeError.DestinationIsClaimOwner) ∧
    (∀ regAt, getClaim k st = some (sender, regAt) → sender ≠ destination →
      transfer_claim (some sender) destination k now st =
        Except.ok (insertClaim k (destination, now) (removeClaim k st),
                   Event.ClaimTransferred sender destination k) ∧
      getClaim k (insertClaim k (destination, now) (removeClaim k st)) =
        some (destination, now)) := by
  refine ⟨fun hg => by simp [transfer_claim, hg], ?_, ?_, ?_⟩
  · intro owner regAt hg ho
    simp [transfer_claim, hg, ho]
  · intro regAt hg hd
    simp [transfer_claim, hg, hd]
  · intro regAt hg hd
    exact ⟨by simp [transfer_claim, hg, hd],
           getClaim_insertClaim_self k (destination, now) (removeClaim k st)⟩

/-- Witness for C4: claim 5 was created by caller 1 at block 3; at block 9
caller 1 transfers it to account 2 — the call succeeds and the stored
entry becomes `(2, 9)`: the block number is refreshed, not preserved. -/
theorem transfer_claim_spec_witness :
    transfer_claim (some 1) 2 (5 : Nat) (9 : Nat)
        ([(5, 1, 3)] : Claims Nat Nat Nat) =
      Except.ok ([(5, 2, 9)], Event.ClaimTransferred 1 2 5) ∧
    getClaim 5 ([(5, 2, 9)] : Claims Nat Nat Nat) = some (2, 9) :=
  (transfer_claim_spec 1 2 5 9 [(5, 1, 3)]).2.2.2 3 rfl (by decide)


/-- Claim C5: whenever a call returns an error, the transactional step
leaves the `Proofs` mapping exactly as it was and deposits no event —
the host applies mutation and event emission all-or-nothing, and the
dispatchables only mutate after every check has passed. -/
theorem error_atomicity {K A B : Type} [DecidableEq K] [DecidableEq A]
    (op : Op K A B) (st : Claims K A B) (e : PoeError)
    (h : runOp op st = Except.error e) : step st op = (st, []) := by
  simp [step, h]

/-- Witness for C5: revoking the absent claim 5 on the empty registry
fails (`ClaimNotExist`) and the step changes nothing and emits nothing. -/
theorem error_atomicity_witness :
    step (emptyClaims Nat Nat Nat) (Op.revoke (some 1) 5) =
      (emptyClaims Nat Nat Nat, []) :=
  error_atomicity (Op.revoke (some 1) 5) (emptyClaims Nat Nat Nat)
    PoeError.ClaimNotExist rfl

/-- Claim C6: a call with an unsigned origin fails with the
`ensure_signed` error `BadOrigin` before any access to the `Proofs`
mapping: the step leaves the mapping unchanged and emits nothing, and
the call's outcome does not depend on the mapping at all (the same
result is returned against any other registry state, so no lookup,
insert or remove is observed). -/
theorem unauthenticated_short_circuit {K A B : Type}
    [DecidableEq K] [DecidableEq A] (op : Op K A B)
    (st st2 : Claims K A B) (h : opOrigin op = Option.none) :
    runOp op st = Except.error PoeError.BadOrigin ∧
    step st op = (st, []) ∧
    runOp op st = runOp op st2 := by
  cases op <;> simp only [opOrigin] at h <;> subst h <;>
    simp [runOp, create_claim, revoke_claim, transfer_claim, step]

/-- Witness for C6: an unsigned `create_claim` of key 5 fails with
`BadOrigin`, mutates nothing, and returns the same result on the empty
registry as on a populated one. -/
theorem unauthenticated_short_circuit_witness :
    runOp (Op.create Option.none (5 : Nat) (2 : Nat))
        (emptyClaims Nat Nat Nat) =
      Except.error PoeError.BadOrigin ∧
    step (emptyClaims Nat Nat Nat) (Op.create Option.none 5 2) =
      (emptyClaims Nat Nat Nat, []) ∧
    runOp (Op.create Option.none (5 : Nat) (2 : Nat))
        (emptyClaims Nat Nat Nat) =
      runOp (Op.create Option.none 5 2) ([(7, 1, 1)] : Claims Nat Nat Nat) :=
  unauthenticated_short_circuit (Op.create Option.none 5 2)
    (emptyClaims Nat Nat Nat) [(7, 1, 1)] rfl

/-- Claim C7: no call ever returns `ClaimTooBig` or `ClaimTooSmall` —
the two length checks of `create_claim` are commented out in the source,
so the error variants exist in `Error<T>` but are never produced. -/
theorem no_size_errors {K A B : Type} [DecidableEq K] [DecidableEq A]
    (op : Op K A B) (st : Claims K A B) :
    runOp op st ≠ Except.error PoeError.ClaimTooBig ∧
    runOp op st ≠ Except.error PoeError.ClaimTooSmall := by
  cases op with
  | create o c n =>
    cases o with
    | none => simp [runOp, create_claim]
    | some s =>
      by_cases hc : contains_key c st <;> simp [runOp, create_claim, hc]
  | revoke o c =>
    cases o with
    | none => simp [runOp, revoke_claim]
    | some s =>
      cases hg : getClaim c st with
      | none => simp [runOp, revoke_claim, hg]
      | some p =>
        obtain ⟨owner, regAt⟩ := p
        by_cases ho : owner = s <;> simp [runOp, revoke_claim, hg, ho]
  | transfer o d c n =>
    cases o with
    | none => simp [runOp, transfer_claim]
    | some s =>
      cases hg : getClaim c st with
      | none => simp [runOp, transfer_claim, hg]
      | some p =>
        obtain ⟨owner, regAt⟩ := p
        by_cases ho : owner = s
        · subst ho
          by_cases hd : owner = d <;> simp [runOp, transfer_claim, hg, hd]
        · simp [runOp, transfer_claim, hg, ho]

/-- Claim C9: a call targeting claim key `opClaim op` never changes the
entry of any other key `l`: its stored value (owner and block number)
and its presence are identical before and after the transactional step,
whether the call succeeds or fails. -/
theorem frame_other_keys {K A B : Type} [DecidableEq K] [DecidableEq A]
    (op : Op K A B) (st : Claims K A B) (l : K) (h : l ≠ opClaim op) :
    getClaim l (step st op).1 = getClaim l st ∧
    contains_key l (step st op).1 = contains_key l st := by
  have hmain : getClaim l (step st op).1 = getClaim l st := by
    cases op with
    | create o c n =>
      simp only [opClaim] at h
      cases o with
      | none => simp [step, runOp, create_claim]
      | some s =>
        by_cases hc : contains_key c st
        · simp [step, runOp, create_claim, hc]
        · simp [step, runOp, create_claim, hc,
                getClaim_insertClaim_ne c l (s, n) st h]
    | revoke o c =>
      simp only [opClaim] at h
      cases o with
      | none => simp [step, runOp, revoke_claim]
      | some s =>
        cases hg : getClaim c st with
        | none => simp [step, runOp, revoke_claim, hg]
        | some p =>
          obtain ⟨owner, regAt⟩ := p
          by_cases ho : owner = s <;>
            simp [step, runOp, revoke_claim, hg, ho,
                  getClaim_removeClaim_ne c l st h]
    | transfer o d c n =>
      simp only [opClaim] at h
      cases o with
      | none => simp [step, runOp, transfer_claim]
      | some s =>
        cases hg : getClaim c st with
        | none => simp [step, runOp, transfer_claim, hg]
        | some p =>
          obtain ⟨owner, regAt⟩ := p
          by_cases ho : owner = s
          · subst ho
            by_cases hd : owner = d
            · simp [step, runOp, transfer_claim, hg, hd]
            · simp [step, runOp, transfer_claim, hg, hd,
                    getClaim_insertClaim_ne c l (d, n) (removeClaim c st) h,
                    getClaim_removeClaim_ne c l st h]
          · simp [step, runOp, transfer_claim, hg, ho]
  refine ⟨hmain, ?_⟩
  rw [contains_key_eq_isSome_getClaim, contains_key_eq_isSome_getClaim, hmain]

/-- Witness for C9: creating claim 5 leaves the unrelated entry stored
at key 7 untouched. -/
theorem frame_other_keys_witness :
    getClaim 7
        (step ([(7, 3, 4)] : Claims Nat Nat Nat) (Op.create (some 1) 5 2)).1 =
      getClaim 7 ([(7, 3, 4)] : Claims Nat Nat Nat) ∧
    contains_key 7
        (step ([(7, 3, 4)] : Claims Nat Nat Nat) (Op.create (some 1) 5 2)).1 =
      contains_key 7 ([(7, 3, 4)] : Claims Nat Nat Nat) :=
  frame_other_keys (Op.create (some 1) 5 2) [(7, 3, 4)] 7 (by decide)


/-- Claim C8: decoding the SCALE encoding of any `Content` value —
including `Content.None` and the default value — returns the original
value, and converting a value to raw bytes yields exactly its payload
bytes, the empty vector for `Content.None`.  The payload length bound is
the `u32` range of the SCALE compact length prefix, which every Rust
`Vec<u8>` wire value satisfies. -/
theorem content_round_trip (c : Content)
    (h : (contentToBytes c).length < 4294967296) :
    decodeContent (encodeContent c) = some (c, []) ∧
    contentToBytes Content.None = [] ∧
    contentToBytes defaultContent = [] ∧
    (∀ b, contentToBytes (Content.Raw b) = b ∧
          contentToBytes (Content.IPFS b) = b ∧
          contentToBytes (Content.Hyper b) = b) :=
  ⟨decodeContent_encodeContent c h, rfl, rfl, fun _ => ⟨rfl, rfl, rfl⟩⟩

/-- Witness for C8: the `Raw [7, 8, 9]` value round-trips through the
codec, and the byte conversions are as claimed. -/
theorem content_round_trip_witness :
    decodeContent (encodeContent (Content.Raw [7, 8, 9])) =
      some (Content.Raw [7, 8, 9], []) ∧
    contentToBytes Content.None = [] ∧
    contentToBytes defaultContent = [] ∧
    (∀ b, contentToBytes (Content.Raw b) = b ∧
          contentToBytes (Content.IPFS b) = b ∧
          contentToBytes (Content.Hyper b) = b) :=
  content_round_trip (Content.Raw [7, 8, 9]) (by decide)

/-- Claim C10: the conversion from `Content` to raw bytes is not
injective — `Content.None` and `Content.Raw []` both map to the empty
vector though they differ, and for every byte vector `b` the distinct
variants `Raw b`, `IPFS b` and `Hyper b` all map to the same bytes `b` —
so the variant cannot be recovered from the converted bytes. -/
theorem content_to_bytes_not_injective :
    contentToBytes Content.None = contentToBytes (Content.Raw []) ∧
    Content.None ≠ Content.Raw [] ∧
    (∀ b, contentToBytes (Content.Raw b) = b ∧
          contentToBytes (Content.IPFS b) = b ∧
          contentToBytes (Content.Hyper b) = b ∧
          Content.Raw b ≠ Content.IPFS b ∧
          Content.IPFS b ≠ Content.Hyper b) ∧
    ¬ Function.Injective contentToBytes := by
  refine ⟨rfl, by simp, fun b => ⟨rfl, rfl, rfl, by simp, by simp⟩, ?_⟩
  intro hinj
  have heq : Content.None = Content.Raw [] := hinj rfl
  exact Content.noConfusion heq

end Poe
